import Mathlib

/-!
Verification development for the zk-wasm email precomputation and parsing layer
(packages/zk-wasm/src/lib.rs).  Bytes are modelled as natural numbers below 256,
32-bit words as natural numbers with explicit reduction modulo 2 ^ 32 at every
operation that can overflow, and fallible Rust functions as Option / Except
values.  Definitions in the first part of the file are translated from the Rust
source; definitions whose doc comment says so are modelled from the
specification text (the FIPS 180-4 compression function and padding used to
state the round-trip and standard-conformance claims).
-/

/-- ASCII lowercase of a byte, as in u8.to_ascii_lowercase. -/
def to_ascii_lowercase (b : Nat) : Nat :=
  if 65 ≤ b ∧ b ≤ 90 then b + 32 else b

/-- Byte-sequence comparison ignoring ASCII case, as in slice eq_ignore_ascii_case.
Two sequences compare equal exactly when they have the same length and agree
pointwise after ASCII lowercasing. -/
def eqIgnoreCase (a b : List Nat) : Bool :=
  a.map to_ascii_lowercase == b.map to_ascii_lowercase

/-- 32-bit right rotation, as in u32.rotate_right for values below 2 ^ 32. -/
def rotr32 (x n : Nat) : Nat :=
  (x >>> n) ||| ((x <<< (32 - n)) % 2 ^ 32)

/-- The SHA-256 round constant table K from the Rust source (identical to the
FIPS 180-4 constants), rendered in decimal: entry 0 is 0x428a2f98 and entry 63
is 0xc67178f2. -/
def K64 : List Nat :=
  [1116352408, 1899447441, 3049323471, 3921009573, 961987163,
   1508970993, 2453635748, 2870763221, 3624381080, 310598401,
   607225278, 1426881987, 1925078388, 2162078206, 2614888103,
   3248222580, 3835390401, 4022224774, 264347078, 604807628,
   770255983, 1249150122, 1555081692, 1996064986, 2554220882,
   2821834349, 2952996808, 3210313671, 3336571891, 3584528711,
   113926993, 338241895, 666307205, 773529912, 1294757372,
   1396182291, 1695183700, 1986661051, 2177026350, 2456956037,
   2730485921, 2820302411, 3259730800, 3345764771, 3516065817,
   3600352804, 4094571909, 275423344, 430227734, 506948616,
   659060556, 883997877, 958139571, 1322822218, 1537002063,
   1747873779, 1955562222, 2024104815, 2227730452, 2361852424,
   2428436474, 2756734187, 3204031479, 3329325298]

/-- The SHA-256 initial hash value used by the Rust source, in decimal: the
words 0x6a09e667 through 0x5be0cd19 of the standard. -/
def sha256InitState : List Nat :=
  [1779033703, 3144134277, 1013904242, 2773480762,
   1359893119, 2600822924, 528734635, 1541459225]

/-- Lower-case sigma-0 message-schedule mixing function of the source. -/
def smallSigma0 (x : Nat) : Nat :=
  rotr32 x 7 ^^^ rotr32 x 18 ^^^ (x >>> 3)

/-- Lower-case sigma-1 message-schedule mixing function of the source. -/
def smallSigma1 (x : Nat) : Nat :=
  rotr32 x 17 ^^^ rotr32 x 19 ^^^ (x >>> 10)

/-- Upper-case Sigma-0 round mixing function of the source. -/
def bigSigma0 (x : Nat) : Nat :=
  rotr32 x 2 ^^^ rotr32 x 13 ^^^ rotr32 x 22

/-- Upper-case Sigma-1 round mixing function of the source. -/
def bigSigma1 (x : Nat) : Nat :=
  rotr32 x 6 ^^^ rotr32 x 11 ^^^ rotr32 x 25

/-- Bitwise choice function: (e and f) xor (not e and g), with 32-bit complement. -/
def chFn (e f g : Nat) : Nat :=
  (e &&& f) ^^^ ((e ^^^ (2 ^ 32 - 1)) &&& g)

/-- Bitwise majority function. -/
def majFn (a b c : Nat) : Nat :=
  (a &&& b) ^^^ (a &&& c) ^^^ (b &&& c)

/-- The eight SHA-256 working variables of the compression loop. -/
structure WorkVars where
  a : Nat
  b : Nat
  c : Nat
  d : Nat
  e : Nat
  f : Nat
  g : Nat
  h : Nat
deriving Repr, DecidableEq

/-- One iteration of the compression loop of sha256_compress in the source,
with every wrapping_add rendered as addition reduced modulo 2 ^ 32 in the same
nesting order as the Rust expression. -/
def roundStep (k w : Nat) (v : WorkVars) : WorkVars :=
  let s1 := bigSigma1 v.e
  let ch := chFn v.e v.f v.g
  let temp1 := ((((v.h + s1) % 2 ^ 32 + ch) % 2 ^ 32 + k) % 2 ^ 32 + w) % 2 ^ 32
  let s0 := bigSigma0 v.a
  let maj := majFn v.a v.b v.c
  let temp2 := (s0 + maj) % 2 ^ 32
  { a := (temp1 + temp2) % 2 ^ 32
    b := v.a
    c := v.b
    d := v.c
    e := (v.d + temp1) % 2 ^ 32
    f := v.e
    g := v.f
    h := v.g }

/-- One step of the message-schedule loop of sha256_compress: the Rust loop for
i in 16..64 writes w[i] from w[i-16], w[i-15], w[i-7] and w[i-2]; appending to a
list of length i realises the same assignment, with the chain of wrapping_add
calls rendered in the same nesting order. -/
def extendSchedule (w : List Nat) : List Nat :=
  w ++ [(((w.getD (w.length - 16) 0 + smallSigma0 (w.getD (w.length - 15) 0)) % 2 ^ 32
          + w.getD (w.length - 7) 0) % 2 ^ 32
          + smallSigma1 (w.getD (w.length - 2) 0)) % 2 ^ 32]

/-- The full 64-entry message schedule of sha256_compress: the first 16 words
are the block, the remaining 48 are produced by the loop embodied in
extendSchedule. -/
def messageSchedule (block : List Nat) : List Nat :=
  extendSchedule^[48] block

/-- The SHA-256 compression function sha256_compress from the Rust source:
message-schedule expansion, 64 compression rounds driven by the round-constant
table, and the final wrapping addition of the working variables into the input
state. -/
def sha256_compress (state block : List Nat) : List Nat :=
  let w := messageSchedule block
  let v0 : WorkVars :=
    { a := state.getD 0 0, b := state.getD 1 0, c := state.getD 2 0, d := state.getD 3 0
      e := state.getD 4 0, f := state.getD 5 0, g := state.getD 6 0, h := state.getD 7 0 }
  let v := (List.range 64).foldl (fun v i => roundStep (K64.getD i 0) (w.getD i 0) v) v0
  [(state.getD 0 0 + v.a) % 2 ^ 32, (state.getD 1 0 + v.b) % 2 ^ 32,
   (state.getD 2 0 + v.c) % 2 ^ 32, (state.getD 3 0 + v.d) % 2 ^ 32,
   (state.getD 4 0 + v.e) % 2 ^ 32, (state.getD 5 0 + v.f) % 2 ^ 32,
   (state.getD 6 0 + v.g) % 2 ^ 32, (state.getD 7 0 + v.h) % 2 ^ 32]

/-- prepare_block from the source: a 64-byte chunk parsed as sixteen big-endian
32-bit words. -/
def prepare_block (chunk : List Nat) : List Nat :=
  (List.range 16).map (fun i =>
    chunk.getD (4 * i) 0 * 2 ^ 24 + chunk.getD (4 * i + 1) 0 * 2 ^ 16
      + chunk.getD (4 * i + 2) 0 * 2 ^ 8 + chunk.getD (4 * i + 3) 0)

/-- The per-block loop of compute_sha256_partial_state: fold sha256_compress
over the successive 64-byte chunks of the data.  The chunk count is the length
divided by 64, which agrees with the Rust chunks iterator on the multiple-of-64
inputs the source feeds it. -/
def processBlocks (st : List Nat) (data : List Nat) : List Nat :=
  processBlocksGo (data.length / 64) st data
where
  processBlocksGo : Nat → List Nat → List Nat → List Nat
    | 0, st, _ => st
    | n + 1, st, data =>
      processBlocksGo n (sha256_compress st (prepare_block (data.take 64))) (data.drop 64)

/-- compute_sha256_partial_state from the source.  The Rust function asserts
that the input length is a multiple of 64 bytes; the assertion failure (panic)
is modelled as none. -/
def compute_sha256_partial_state (data : List Nat) : Option (List Nat) :=
  if data.length % 64 = 0 then
    some (processBlocks sha256InitState data)
  else
    none

/-- calculate_split_point from the source: the block-boundary planner.  The
numeric value 0 doubles as the failure signal, exactly as in the Rust code. -/
def calculate_split_point (min_split from_pos : Nat) : Nat :=
  if from_pos ≤ min_split then
    if from_pos ≤ min_split / 64 * 64 then 0 else min_split / 64 * 64
  else
    if (from_pos - 1) / 64 * 64 < min_split then 0 else (from_pos - 1) / 64 * 64

/-- Generic first-window scanner: the index of the first window of data of the
length of pat on which cmp accepts, scanning forward; none when no window is
accepted.  This is the shape shared by the windows().position(..) call in
find_subsequence and by str::find. -/
def scan_windows (cmp : List Nat → List Nat → Bool) : List Nat → List Nat → Option Nat
  | data, pat =>
    if pat.length ≤ data.length ∧ cmp (data.take pat.length) pat = true then some 0
    else
      match data with
      | [] => none
      | _ :: t => (scan_windows cmp t pat).map (fun x => x + 1)

/-- find_subsequence from the source: position of the first window of data that
equals pattern ignoring ASCII case. -/
def find_subsequence (data pattern_ : List Nat) : Option Nat :=
  scan_windows eqIgnoreCase data pattern_

/-- Exact substring search, as performed by str::find in the source. -/
def find_exact (data pattern_ : List Nat) : Option Nat :=
  scan_windows (fun a b => a == b) data pattern_

/-- The byte string From: . -/
def fromPat : List Nat := [70, 114, 111, 109, 58]

/-- The byte string LF From: . -/
def nFromPat : List Nat := 10 :: fromPat

/-- The byte string CR LF From: . -/
def rnFromPat : List Nat := 13 :: 10 :: fromPat

/-- The byte string LF from: . -/
def nfromLowerPat : List Nat := [10, 102, 114, 111, 109, 58]

/-- The byte string CR LF from: . -/
def rnfromLowerPat : List Nat := 13 :: nfromLowerPat

/-- find_from_header_position from the source: the start-of-input check
followed by the four-pattern loop, with the per-pattern newline offset. -/
def find_from_header_position (data : List Nat) : Option Nat :=
  if 5 ≤ data.length ∧ eqIgnoreCase (data.take 5) fromPat = true then some 0
  else
    match find_subsequence data nFromPat with
    | some pos => some (pos + 1)
    | none =>
      match find_subsequence data rnFromPat with
      | some pos => some (pos + 2)
      | none =>
        match find_subsequence data nfromLowerPat with
        | some pos => some (pos + 1)
        | none =>
          match find_subsequence data rnfromLowerPat with
          | some pos => some (pos + 2)
          | none => none

/-- Result record of compute_partial_hash_for_email, as in the source. -/
structure PartialHashResult where
  state : List Nat
  remaining : List Nat
  total_length : Nat
  prehashed_length : Nat
deriving Repr, DecidableEq

/-- The two error outcomes compute_partial_hash_for_email can report.  In the
source they are JsValue strings; fromHeaderNotFound corresponds to the message
about a missing From header and unsplittable to the message about the From
header being too close to the start for partial hashing. -/
inductive HashError where
  | fromHeaderNotFound
  | unsplittable
deriving Repr, DecidableEq

deriving instance DecidableEq for Except

/-- compute_partial_hash_for_email from the source.  The outer Option models
panic freedom: none would mean the assertion inside
compute_sha256_partial_state fired. -/
def compute_partial_hash_for_email (header_bytes : List Nat) (max_remaining_len : Nat) :
    Option (Except HashError PartialHashResult) :=
  let header_len := header_bytes.length
  if header_len ≤ max_remaining_len then
    some (Except.ok
      { state := sha256InitState
        remaining := header_bytes
        total_length := header_len
        prehashed_length := 0 })
  else
    match find_from_header_position header_bytes with
    | none => some (Except.error HashError.fromHeaderNotFound)
    | some from_pos =>
      let min_split := if max_remaining_len < header_len then header_len - max_remaining_len else 0
      let split_point := calculate_split_point min_split from_pos
      if split_point = 0 then
        some (Except.error HashError.unsplittable)
      else
        match compute_sha256_partial_state (header_bytes.take split_point) with
        | none => none
        | some st =>
          some (Except.ok
            { state := st
              remaining := header_bytes.drop split_point
              total_length := header_len
              prehashed_length := split_point })

/-- Modelled from the spec: the FIPS 180-4 message schedule as a recurrence.
W(i) is the i-th block word for i below 16 and otherwise the modular sum of
sigma-1 of W(i-2), W(i-7), sigma-0 of W(i-15) and W(i-16). -/
def fipsW (M : Nat → Nat) (i : Nat) : Nat :=
  if h : i < 16 then M i
  else (smallSigma1 (fipsW M (i - 2)) + fipsW M (i - 7)
        + smallSigma0 (fipsW M (i - 15)) + fipsW M (i - 16)) % 2 ^ 32
termination_by i
decreasing_by all_goals omega

/-- Modelled from the spec: one FIPS 180-4 compression round, written with the
T1 and T2 temporaries of the standard. -/
def fipsRound (k wt : Nat) (v : WorkVars) : WorkVars :=
  let t1 := (v.h + bigSigma1 v.e + chFn v.e v.f v.g + k + wt) % 2 ^ 32
  let t2 := (bigSigma0 v.a + majFn v.a v.b v.c) % 2 ^ 32
  { a := (t1 + t2) % 2 ^ 32
    b := v.a
    c := v.b
    d := v.c
    e := (v.d + t1) % 2 ^ 32
    f := v.e
    g := v.f
    h := v.g }

/-- Modelled from the spec: the first t FIPS 180-4 compression rounds applied
in order, round u using constant K(u) and schedule word W(u). -/
def fipsIter (K W : Nat → Nat) : Nat → WorkVars → WorkVars
  | 0, v => v
  | t + 1, v => fipsRound (K t) (W t) (fipsIter K W t v)

/-- Modelled from the spec: the full FIPS 180-4 SHA-256 compression function on
an 8-word state and 16-word block, finishing with the modular addition of the
worked variables into the input state. -/
def fipsCompress (state block : List Nat) : List Nat :=
  let v0 : WorkVars :=
    { a := state.getD 0 0, b := state.getD 1 0, c := state.getD 2 0, d := state.getD 3 0
      e := state.getD 4 0, f := state.getD 5 0, g := state.getD 6 0, h := state.getD 7 0 }
  let v := fipsIter (fun t => K64.getD t 0) (fipsW (fun j => block.getD j 0)) 64 v0
  [(state.getD 0 0 + v.a) % 2 ^ 32, (state.getD 1 0 + v.b) % 2 ^ 32,
   (state.getD 2 0 + v.c) % 2 ^ 32, (state.getD 3 0 + v.d) % 2 ^ 32,
   (state.getD 4 0 + v.e) % 2 ^ 32, (state.getD 5 0 + v.f) % 2 ^ 32,
   (state.getD 6 0 + v.g) % 2 ^ 32, (state.getD 7 0 + v.h) % 2 ^ 32]

/-- Modelled from the spec: the eight big-endian bytes of the 64-bit bit-length
field of SHA-256 padding for a message of L bytes. -/
def sha256LenBytes (L : Nat) : List Nat :=
  (List.range 8).map (fun i => 8 * L / 2 ^ (8 * (7 - i)) % 256)

/-- Modelled from the spec: the standard SHA-256 padding suffix for a message
of L bytes: the byte 0x80, enough zero bytes to reach 8 bytes short of a
64-byte boundary, then the big-endian 64-bit bit length. -/
def sha256PadSuffix (L : Nat) : List Nat :=
  128 :: List.replicate ((119 - L % 64) % 64) 0 ++ sha256LenBytes L

/-- Modelled from the spec: full standard SHA-256 over a byte message, as the
block-compression fold over the padded message starting from the initial hash
value.  The digest is the final 8-word state. -/
def sha256Spec (msg : List Nat) : List Nat :=
  processBlocks sha256InitState (msg ++ sha256PadSuffix msg.length)

/-- Resuming SHA-256 from a midstate: fold the compression function over the
remaining bytes extended with the standard padding suffix computed from the
total message length. -/
def sha256Resume (st remaining : List Nat) (totalLen : Nat) : List Nat :=
  processBlocks st (remaining ++ sha256PadSuffix totalLen)

/-- The numeric core of bigint_to_limbs from the source: repeatedly mask the
low limb_bits bits and shift right, little-endian, for num_limbs iterations. -/
def bigint_to_limbs_nat (value : Nat) (num_limbs limb_bits : Nat) : List Nat :=
  match num_limbs with
  | 0 => []
  | n + 1 =>
    (value &&& (1 <<< limb_bits - 1)) :: bigint_to_limbs_nat (value >>> limb_bits) n limb_bits

/-- bigint_to_limbs from the source: the same limbs rendered as decimal
strings, as the Rust function pushes limb.to_string(). -/
def bigint_to_limbs (value : Nat) (num_limbs limb_bits : Nat) : List String :=
  (bigint_to_limbs_nat value num_limbs limb_bits).map Nat.repr

/-- calculate_redc_param from the source: the modulus and limb width are
ignored and a vector of num_limbs zero limbs is returned. -/
def calculate_redc_param (_modulus : Nat) (num_limbs : Nat) (_limb_bits : Nat) : List String :=
  List.replicate num_limbs "0"

/-- Regex whitespace class over ASCII bytes: space, tab, LF, VT, FF, CR. -/
def isWsB (b : Nat) : Bool :=
  b == 32 || b == 9 || b == 10 || b == 11 || b == 12 || b == 13

/-- ASCII letter. -/
def isAlphaB (b : Nat) : Bool :=
  (65 ≤ b && b ≤ 90) || (97 ≤ b && b ≤ 122)

/-- ASCII digit. -/
def isDigitB (b : Nat) : Bool :=
  48 ≤ b && b ≤ 57

/-- The local-part character class of the address regex in the source:
letters, digits, dot, underscore, percent, plus, minus. -/
def isLocalB (b : Nat) : Bool :=
  isAlphaB b || isDigitB b || b == 46 || b == 95 || b == 37 || b == 43 || b == 45

/-- The domain character class of the address regex in the source:
letters, digits, dot, minus. -/
def isDomainB (b : Nat) : Bool :=
  isAlphaB b || isDigitB b || b == 46 || b == 45

/-- Length of the maximal run of regex whitespace starting at q. -/
def wsRun (data : List Nat) (q : Nat) : Nat :=
  ((data.drop q).takeWhile isWsB).length

/-- Length of the maximal run of bytes other than CR and LF starting at q. -/
def lineRun (data : List Nat) (q : Nat) : Nat :=
  ((data.drop q).takeWhile (fun b => !(b == 13) && !(b == 10))).length

/-- Length of the maximal run of ASCII letters starting at q. -/
def alphaRun (data : List Nat) (q : Nat) : Nat :=
  ((data.drop q).takeWhile isAlphaB).length

/-- Embeds the tail of the From-header regex of find_from_header_info after
the literal token: greedy whitespace-star followed by a nonempty run of
non-CRLF bytes, with backtracking.  Returns the start of the captured group:
the largest k within the whitespace run such that the byte at q + k exists and
is neither CR nor LF; none when no such k exists, in which case the regex does
not match at this position. -/
def fromValueStart (data : List Nat) (q : Nat) : Option Nat :=
  ((List.range (wsRun data q + 1)).reverse.find? (fun k =>
      decide (q + k < data.length)
        && !(data.getD (q + k) 0 == 13) && !(data.getD (q + k) 0 == 10))).map
    (fun k => q + k)

/-- The multiline start-of-line anchor of the From-header regex: position 0 or
a position immediately after an LF byte. -/
def fromAnchorB (data : List Nat) (p : Nat) : Bool :=
  p == 0 || data.getD (p - 1) 0 == 10

/-- The case-insensitive literal token From: at position p. -/
def fromTokenAtB (data : List Nat) (p : Nat) : Bool :=
  decide (p + 5 ≤ data.length) && eqIgnoreCase ((data.drop p).take 5) fromPat

/-- Embeds the From-header regex of find_from_header_info: the leftmost
position where the anchor, the literal token and the value tail all match.
Returns the match start, the start of the captured value group and its end
(the match itself also ends where the group ends). -/
def fromLineFind (data : List Nat) : Option (Nat × Nat × Nat) :=
  match (List.range (data.length + 1)).find? (fun p =>
      fromAnchorB data p && fromTokenAtB data p && (fromValueStart data (p + 5)).isSome) with
  | none => none
  | some p =>
    (fromValueStart data (p + 5)).map (fun gs => (p, gs, gs + lineRun data gs))

/-- Embeds the first alternative of the address regex: an angle-bracket pair
with a nonempty run of non-bracket bytes between; the captured group is that
run. -/
def branch1At (c : List Nat) (s : Nat) : Option (List Nat) :=
  if s < c.length ∧ c.getD s 0 = 60 then
    let r := ((c.drop (s + 1)).takeWhile (fun b => !(b == 62))).length
    if 1 ≤ r ∧ s + 1 + r < c.length then some ((c.drop (s + 1)).take r) else none
  else none

/-- Embeds the second alternative of the address regex: a nonempty greedy run
of local-part characters, a literal at sign, then a domain with backtracking:
the largest dot position inside the greedy domain-class run that is followed by
at least two letters.  The captured group runs from s to the end of the greedy
letter run after that dot. -/
def branch2At (c : List Nat) (s : Nat) : Option (List Nat) :=
  let L := ((c.drop s).takeWhile isLocalB).length
  if 1 ≤ L ∧ s + L < c.length ∧ c.getD (s + L) 0 = 64 then
    let u := s + L + 1
    let R := ((c.drop u).takeWhile isDomainB).length
    match (List.range R).reverse.find? (fun dv =>
        decide (1 ≤ dv) && c.getD (u + dv) 0 == 46
          && isAlphaB (c.getD (u + dv + 1) 0) && isAlphaB (c.getD (u + dv + 2) 0)
          && decide (u + dv + 2 < c.length)) with
    | none => none
    | some dv =>
      let v := u + dv
      some ((c.drop s).take (v + 1 + alphaRun c (v + 1) - s))
  else none

/-- Embeds the address regex of find_from_header_info with leftmost-first
alternation: scan start positions forward, preferring the angle-bracket
alternative at a given position, and return the captured group. -/
def emailFind (c : List Nat) : Option (List Nat) :=
  match (List.range c.length).find? (fun s =>
      (branch1At c s).isSome || (branch2At c s).isSome) with
  | none => none
  | some s =>
    match branch1At c s with
    | some g => some g
    | none => branch2At c s

/-- The error outcomes of find_from_header_info.  In the source they are
JsValue strings: a missing From header, a From header without an embedded
address, and a lowercased address that does not occur in the email text. -/
inductive FromInfoError where
  | fromHeaderNotFound
  | addressNotFound
  | addressNotInEmail
deriving Repr, DecidableEq

/-- find_from_header_info from the source: locate the From header line via the
multiline case-insensitive regex, extract the address from the captured value
via the two-alternative address regex, lowercase it, then locate the first
occurrence of the lowercased address in the whole text.  Returns header start,
header length, address start, address length and the lowercased address. -/
def find_from_header_info (data : List Nat) :
    Except FromInfoError (Nat × Nat × Nat × Nat × List Nat) :=
  match fromLineFind data with
  | none => Except.error FromInfoError.fromHeaderNotFound
  | some (p, gs, ge) =>
    match emailFind ((data.drop gs).take (ge - gs)) with
    | none => Except.error FromInfoError.addressNotFound
    | some addr =>
      let lowered := addr.map to_ascii_lowercase
      match find_exact data lowered with
      | none => Except.error FromInfoError.addressNotInEmail
      | some ai => Except.ok (p, ge - p, ai, lowered.length, lowered)

/-- Concrete header used against claim C3: 64 filler bytes, an LF, the token
From:, then 10 trailing bytes, so that the From header sits at offset 65. -/
def c3H : List Nat :=
  List.replicate 64 65 ++ [10, 70, 114, 111, 109, 58] ++ List.replicate 10 66

/-- Concrete header for the C3 witness: as c3H but with 130 trailing bytes,
total length 200. -/
def c3wH : List Nat :=
  List.replicate 64 65 ++ [10, 70, 114, 111, 109, 58] ++ List.replicate 130 66

/-- Concrete header used against claim C7: 4 filler bytes, an LF, the token
From:, then 64 trailing bytes, so the From header sits at offset 5 and the
header is 74 bytes long. -/
def c7H : List Nat :=
  List.replicate 4 65 ++ [10, 70, 114, 111, 109, 58] ++ List.replicate 64 66

/-- The scenario input of claim C8 as bytes:
Received: from test CRLF From: test at example.com CRLF To: other at example.com. -/
def c8Scenario : List Nat :=
  [82, 101, 99, 101, 105, 118, 101, 100, 58, 32, 102, 114, 111, 109, 32, 116,
   101, 115, 116, 13, 10, 70, 114, 111, 109, 58, 32, 116, 101, 115, 116, 64,
   101, 120, 97, 109, 112, 108, 101, 46, 99, 111, 109, 13, 10, 84, 111, 58,
   32, 111, 116, 104, 101, 114, 64, 101, 120, 97, 109, 112, 108, 101, 46, 99,
   111, 109]

/-- Concrete email used against claim C9: a From line whose embedded address
carries upper-case letters, so its lowercased form occurs nowhere in the text.
The bytes spell From: A at B.co followed by an LF. -/
def c9cex : List Nat :=
  [70, 114, 111, 109, 58, 32, 65, 64, 66, 46, 99, 111, 10]

/-- Concrete email for the C9 witness: the bytes spell From: a at bc.de
followed by an LF; the address is already lower case and occurs at offset 6. -/
def c9demo : List Nat :=
  [70, 114, 111, 109, 58, 32, 97, 64, 98, 99, 46, 100, 101, 10]

/-- Concrete 16-word block for the C2 witness. -/
def demoBlock16 : List Nat :=
  (List.range 16).map (fun i => (i * 37 + 5) % 2 ^ 32)

/-- The remaining-bytes length of a successful partial-hash outcome. -/
def okRemainingLength (x : Option (Except HashError PartialHashResult)) : Option Nat :=
  match x with
  | some (Except.ok r) => some r.remaining.length
  | _ => none

/-- The prehashed length of a successful partial-hash outcome. -/
def okPrehashedLength (x : Option (Except HashError PartialHashResult)) : Option Nat :=
  match x with
  | some (Except.ok r) => some r.prehashed_length
  | _ => none

/-- Window acceptance predicate for the generic scanner: the window of the
length of pat starting at i lies inside data and cmp accepts it. -/
abbrev windowP (cmp : List Nat → List Nat → Bool) (data : List Nat) (i : Nat)
    (pat : List Nat) : Prop :=
  pat.length + i ≤ data.length ∧ cmp ((data.drop i).take pat.length) pat = true

/-- A From: token occurrence in the sense of the specification: the literal
token matches case-insensitively at p, and p is either the start of the input
or immediately preceded by an LF byte.  A CRLF line break also puts its LF
immediately before p, so both line-break forms are covered. -/
abbrev fromMatchAt (data : List Nat) (p : Nat) : Prop :=
  windowP eqIgnoreCase data p fromPat ∧ (p = 0 ∨ data.getD (p - 1) 0 = 10)

theorem csp_mod64 (ms fp : Nat) : calculate_split_point ms fp % 64 = 0 := by
  unfold calculate_split_point
  split_ifs <;> omega

/-- C4 counterexample: on minSplit 70 and mandatoryPosition 65 the planner
returns the nonzero value 64, which is below minSplit, so the claimed
invariant chosenSplit at least minSplit fails on the code. -/
theorem c4_counterexample :
    calculate_split_point 70 65 = 64 ∧
    0 < calculate_split_point 70 65 ∧
    calculate_split_point 70 65 < 70 := by decide

/-- C4 amended: whenever the planner returns a nonzero value, that value is a
multiple of 64 and strictly below the mandatory position; it is at least
minSplit minus 63 in general, and at least minSplit whenever minSplit is below
the mandatory position. -/
theorem c4_split_invariants (ms fp : Nat) (h : calculate_split_point ms fp ≠ 0) :
    calculate_split_point ms fp % 64 = 0 ∧
    calculate_split_point ms fp < fp ∧
    ms ≤ calculate_split_point ms fp + 63 ∧
    (ms < fp → ms ≤ calculate_split_point ms fp) := by
  unfold calculate_split_point at h ⊢
  split_ifs at h ⊢ <;> omega

theorem c4_split_invariants_witness :
    calculate_split_point 100 200 % 64 = 0 ∧
    calculate_split_point 100 200 < 200 ∧
    100 ≤ calculate_split_point 100 200 :=
  have h := c4_split_invariants 100 200 (by decide)
  ⟨h.1, h.2.1, h.2.2.2 (by decide)⟩

/-- C5: the code returns the all-zero limb vector for every modulus, which
does not satisfy the Montgomery identity; for modulus 3 with one 8-bit limb
the correct constant is 85, as 3 times 85 is congruent to minus one modulo
256, while the encoded output value 0 gives 3 times 0 equal to 0. -/
theorem c5_redc_stub_code_bug :
    calculate_redc_param 3 1 8 = ["0"] ∧
    3 * 0 % 2 ^ 8 = 0 ∧
    3 * 85 % 2 ^ 8 = 2 ^ 8 - 1 := by decide

/-- C7 counterexample: with header c7H and capacity 64 the planner rules of
the specification yield the legal split 0 (zero is a multiple of 64, is below
the mandatory position 5, and rounding minSplit 10 down to a 64-byte boundary
gives 0), yet the pipeline reports the Unsplittable failure, because the
planner returns the number 0 which is also the failure sentinel. -/
theorem c7_counterexample :
    c7H.length = 74 ∧
    find_from_header_position c7H = some 5 ∧
    5 ≤ 74 - 64 ∧ (74 - 64) / 64 * 64 = 0 ∧ 0 < 5 ∧
    calculate_split_point (74 - 64) 5 = 0 ∧
    compute_partial_hash_for_email c7H 64 =
      some (Except.error HashError.unsplittable) := by decide

/-- C7 amended: the planner encodes the absence of a valid split and a
legitimate zero split by the same numeric value 0, and
compute_partial_hash_for_email maps every zero split to the Unsplittable
failure; in particular whenever rule 1 of the specification yields the legal
split 0 the planner returns 0 and the caller reports Unsplittable, so a
success with chosenSplit 0 never occurs. -/
theorem c7_zero_split_conflated (ms fp fp2 : Nat) (H : List Nat) (cap : Nat)
    (h1 : 0 < fp) (h2 : fp ≤ ms) (h3 : ms < 64)
    (h4 : cap < H.length) (h5 : find_from_header_position H = some fp2)
    (h6 : calculate_split_point (H.length - cap) fp2 = 0) :
    calculate_split_point ms fp = 0 ∧
    compute_partial_hash_for_email H cap =
      some (Except.error HashError.unsplittable) := by
  constructor
  · unfold calculate_split_point
    split_ifs <;> omega
  · unfold compute_partial_hash_for_email
    rw [if_neg (by omega), h5]
    simp only [if_pos h4, h6]
    simp

theorem c7_zero_split_conflated_witness :
    calculate_split_point 10 5 = 0 ∧
    compute_partial_hash_for_email c7H 64 =
      some (Except.error HashError.unsplittable) :=
  c7_zero_split_conflated 10 5 5 c7H 64 (by decide) (by decide) (by decide)
    (by decide) (by decide) (by decide)

/-- C6: for any value below 2 to the product of limb count and limb width,
bigint_to_limbs produces exactly that many little-endian limbs, each below
2 to the limb width, whose positional sum reconstructs the value; the string
limbs are the decimal renderings of these numeric limbs. -/
theorem c6_limb_roundtrip (v N b : Nat) (h : v < 2 ^ (N * b)) :
    (bigint_to_limbs_nat v N b).length = N ∧
    (∀ l ∈ bigint_to_limbs_nat v N b, l < 2 ^ b) ∧
    (∑ i in Finset.range N, (bigint_to_limbs_nat v N b).getD i 0 * 2 ^ (b * i)) = v ∧
    bigint_to_limbs v N b = (bigint_to_limbs_nat v N b).map Nat.repr := by
  induction N generalizing v with
  | zero =>
    have hv : v = 0 := by simpa using h
    subst hv
    exact ⟨rfl, by simp [bigint_to_limbs_nat], by simp, rfl⟩
  | succ N ih =>
    have hmask : v &&& (1 <<< b - 1) = v % 2 ^ b := by
      rw [Nat.shiftLeft_eq, one_mul, Nat.and_pow_two_sub_one_eq_mod]
    have hshift : v >>> b = v / 2 ^ b := Nat.shiftRight_eq_div_pow v b
    have hb : 0 < 2 ^ b := Nat.pos_pow_of_pos b (by omega)
    have hlt : v / 2 ^ b < 2 ^ (N * b) := by
      rw [Nat.div_lt_iff_lt_mul hb, ← pow_add]
      calc v < 2 ^ ((N + 1) * b) := h
        _ = 2 ^ (N * b + b) := by ring_nf
    obtain ⟨ihlen, ihmem, ihsum, _⟩ := ih (v / 2 ^ b) hlt
    have hdef : bigint_to_limbs_nat v (N + 1) b
        = (v % 2 ^ b) :: bigint_to_limbs_nat (v / 2 ^ b) N b := by
      rw [bigint_to_limbs_nat, hmask, hshift]
    refine ⟨by rw [hdef]; simp [ihlen], ?_, ?_, rfl⟩
    · intro l hl
      rw [hdef] at hl
      rcases List.mem_cons.mp hl with h1 | h2
      · subst h1; exact Nat.mod_lt v hb
      · exact ihmem l h2
    · rw [hdef, Finset.sum_range_succ']
      have hstep : ∀ i : Nat,
          ((v % 2 ^ b) :: bigint_to_limbs_nat (v / 2 ^ b) N b).getD (i + 1) 0 * 2 ^ (b * (i + 1))
            = 2 ^ b * ((bigint_to_limbs_nat (v / 2 ^ b) N b).getD i 0 * 2 ^ (b * i)) := by
        intro i
        have : 2 ^ (b * (i + 1)) = 2 ^ b * 2 ^ (b * i) := by
          rw [← pow_add]; ring_nf
        simp [List.getD_cons_succ, this]
        ring
      rw [Finset.sum_congr rfl (fun i _ => hstep i), ← Finset.mul_sum, ihsum]
      simp [List.getD_cons_zero]
      have hm := Nat.mod_add_div v (2 ^ b)
      omega

theorem c6_limb_roundtrip_witness :
    (bigint_to_limbs_nat 300 2 8).length = 2 ∧
    (∑ i in Finset.range 2, (bigint_to_limbs_nat 300 2 8).getD i 0 * 2 ^ (8 * i)) = 300 :=
  have h := c6_limb_roundtrip 300 2 8 (by decide)
  ⟨h.1, h.2.2.1⟩

theorem windowP_zero_iff (cmp : List Nat → List Nat → Bool) (data pat : List Nat) :
    windowP cmp data 0 pat ↔
      pat.length ≤ data.length ∧ cmp (data.take pat.length) pat = true := by
  unfold windowP
  simp

theorem windowP_cons_succ_iff (cmp : List Nat → List Nat → Bool) (x : Nat)
    (t : List Nat) (j : Nat) (pat : List Nat) :
    windowP cmp (x :: t) (j + 1) pat ↔ windowP cmp t j pat := by
  unfold windowP
  rw [List.drop_succ_cons]
  simp only [List.length_cons]
  constructor
  · rintro ⟨h1, h2⟩; exact ⟨by omega, h2⟩
  · rintro ⟨h1, h2⟩; exact ⟨by omega, h2⟩

theorem scan_windows_eq_some_iff (cmp : List Nat → List Nat → Bool)
    (data pat : List Nat) (i : Nat) :
    scan_windows cmp data pat = some i ↔
      windowP cmp data i pat ∧ ∀ j, j < i → ¬ windowP cmp data j pat := by
  induction data generalizing i with
  | nil =>
    have hnil : ∀ q, windowP cmp [] q pat ↔
        pat.length = 0 ∧ q = 0 ∧ cmp [] pat = true := by
      intro q
      unfold windowP
      constructor
      · rintro ⟨h1, h2⟩
        simp only [List.length_nil] at h1
        have hp : pat.length = 0 := by omega
        have hq : q = 0 := by omega
        subst hq
        refine ⟨hp, rfl, ?_⟩
        simpa using h2
      · rintro ⟨hp, hq, h2⟩
        subst hq
        refine ⟨by simp [hp], by simpa using h2⟩
    rw [scan_windows]
    split_ifs with hc
    · constructor
      · intro h
        have hi : i = 0 := by
          have := Option.some.inj h; omega
        subst hi
        refine ⟨?_, fun j hj => by omega⟩
        refine (hnil 0).mpr ⟨by simpa using hc.1, rfl, by simpa using hc.2⟩
      · rintro ⟨hw, hmin⟩
        have hi : i = 0 := ((hnil i).mp hw).2.1
        subst hi; rfl
    · constructor
      · intro h; simp at h
      · rintro ⟨hw, _⟩
        obtain ⟨hp, hq, h2⟩ := (hnil i).mp hw
        exfalso
        apply hc
        refine ⟨by simp [hp], ?_⟩
        simpa [hp] using h2
  | cons x t ih =>
    rw [scan_windows]
    split_ifs with hc
    · constructor
      · intro h
        have hi : i = 0 := by
          have := Option.some.inj h; omega
        subst hi
        refine ⟨(windowP_zero_iff cmp (x :: t) pat).mpr hc, fun j hj => by omega⟩
      · rintro ⟨hw, hmin⟩
        have hi : i = 0 := by
          by_contra hne
          exact hmin 0 (by omega) ((windowP_zero_iff cmp (x :: t) pat).mpr hc)
        subst hi; rfl
    · constructor
      · intro h
        obtain ⟨j, hj, rfl⟩ := Option.map_eq_some'.mp h
        obtain ⟨hw, hmin⟩ := (ih j).mp hj
        refine ⟨(windowP_cons_succ_iff cmp x t j pat).mpr hw, ?_⟩
        intro q hq hwq
        cases q with
        | zero => exact hc ((windowP_zero_iff cmp (x :: t) pat).mp hwq)
        | succ q2 =>
          exact hmin q2 (by omega) ((windowP_cons_succ_iff cmp x t q2 pat).mp hwq)
      · rintro ⟨hw, hmin⟩
        cases i with
        | zero => exact absurd ((windowP_zero_iff cmp (x :: t) pat).mp hw) hc
        | succ j =>
          have hj : scan_windows cmp t pat = some j := by
            refine (ih j).mpr ⟨(windowP_cons_succ_iff cmp x t j pat).mp hw, ?_⟩
            intro q hq hwq
            exact hmin (q + 1) (by omega) ((windowP_cons_succ_iff cmp x t q pat).mpr hwq)
          simp [hj]

theorem scan_windows_eq_none_iff (cmp : List Nat → List Nat → Bool)
    (data pat : List Nat) :
    scan_windows cmp data pat = none ↔ ∀ i, ¬ windowP cmp data i pat := by
  constructor
  · intro h i hw
    cases hcase : scan_windows cmp data pat with
    | none =>
      by_cases hex : ∃ j, windowP cmp data j pat ∧ ∀ q, q < j → ¬ windowP cmp data q pat
      · obtain ⟨j, hj⟩ := hex
        rw [(scan_windows_eq_some_iff cmp data pat j).mpr hj] at hcase
        exact Option.noConfusion hcase
      · have : ∀ j, ¬ windowP cmp data j pat := by
          intro j
          induction j using Nat.strong_induction_on with
          | _ j ihj =>
            intro hwj
            exact hex ⟨j, hwj, fun q hq => ihj q hq⟩
        exact this i hw
    | some j => rw [h] at hcase; exact Option.noConfusion hcase
  · intro h
    cases hcase : scan_windows cmp data pat with
    | none => rfl
    | some j =>
      exact absurd ((scan_windows_eq_some_iff cmp data pat j).mp hcase).1 (h j)

theorem lower_eq_ten_iff (x : Nat) : to_ascii_lowercase x = 10 ↔ x = 10 := by
  unfold to_ascii_lowercase
  split_ifs <;> omega

theorem windowP_eqI_cons (data : List Nat) (i c : Nat) (pat : List Nat) :
    windowP eqIgnoreCase data i (c :: pat) ↔
      i < data.length ∧ to_ascii_lowercase (data.getD i 0) = to_ascii_lowercase c ∧
        windowP eqIgnoreCase data (i + 1) pat := by
  unfold windowP eqIgnoreCase
  simp only [beq_iff_eq, List.length_cons]
  constructor
  · rintro ⟨h1, h2⟩
    have hi : i < data.length := by omega
    rw [List.drop_eq_getElem_cons hi, List.take_succ_cons, List.map_cons, List.map_cons,
      List.cons.injEq] at h2
    refine ⟨hi, ?_, by omega, h2.2⟩
    rw [List.getD_eq_getElem data 0 hi]
    exact h2.1
  · rintro ⟨hi, hc2, h1, h2⟩
    refine ⟨by omega, ?_⟩
    rw [List.drop_eq_getElem_cons hi, List.take_succ_cons, List.map_cons, List.map_cons,
      List.cons.injEq]
    refine ⟨?_, h2⟩
    rw [← List.getD_eq_getElem data 0 hi]
    exact hc2

theorem windowP_nFrom_iff (data : List Nat) (i : Nat) :
    windowP eqIgnoreCase data i nFromPat ↔
      data.getD i 0 = 10 ∧ windowP eqIgnoreCase data (i + 1) fromPat := by
  have hdef : nFromPat = 10 :: fromPat := rfl
  rw [hdef, windowP_eqI_cons]
  have h10 : to_ascii_lowercase 10 = 10 := by decide
  constructor
  · rintro ⟨hi, hl, hw⟩
    rw [h10] at hl
    exact ⟨(lower_eq_ten_iff _).mp hl, hw⟩
  · rintro ⟨hg, hw⟩
    have hlen : fromPat.length = 5 := rfl
    have hi : i < data.length := by
      rcases hw with ⟨h1, _⟩
      omega
    refine ⟨hi, ?_, hw⟩
    rw [hg]

theorem find_subsequence_congr (data p1 p2 : List Nat)
    (h : p1.map to_ascii_lowercase = p2.map to_ascii_lowercase) :
    find_subsequence data p1 = find_subsequence data p2 := by
  have hlen : p1.length = p2.length := by
    have := congrArg List.length h
    simpa using this
  have hw : ∀ i, windowP eqIgnoreCase data i p1 ↔ windowP eqIgnoreCase data i p2 := by
    intro i
    unfold windowP eqIgnoreCase
    rw [hlen, h]
  unfold find_subsequence
  cases hcase : scan_windows eqIgnoreCase data p1 with
  | none =>
    have hn := (scan_windows_eq_none_iff _ data p1).mp hcase
    exact ((scan_windows_eq_none_iff _ data p2).mpr (fun i hi => hn i ((hw i).mpr hi))).symm
  | some j =>
    obtain ⟨h1, h2⟩ := (scan_windows_eq_some_iff _ data p1 j).mp hcase
    exact ((scan_windows_eq_some_iff _ data p2 j).mpr
      ⟨(hw j).mp h1, fun q hq hqq => h2 q hq ((hw q).mpr hqq)⟩).symm

theorem find_subsequence_rn_none (data : List Nat)
    (h : find_subsequence data nFromPat = none) :
    find_subsequence data rnFromPat = none := by
  have hdef : rnFromPat = 13 :: nFromPat := rfl
  unfold find_subsequence at h ⊢
  rw [scan_windows_eq_none_iff] at h ⊢
  intro i hw
  rw [hdef] at hw
  exact h (i + 1) ((windowP_eqI_cons data i 13 nFromPat).mp hw).2.2

theorem ffhp_eq_of_not_start (data : List Nat)
    (hc : ¬(5 ≤ data.length ∧ eqIgnoreCase (data.take 5) fromPat = true)) :
    find_from_header_position data
      = (find_subsequence data nFromPat).map (fun i => i + 1) := by
  unfold find_from_header_position
  rw [if_neg hc]
  cases hn : find_subsequence data nFromPat with
  | some pos => simp [hn]
  | none =>
    have h2 : find_subsequence data rnFromPat = none := find_subsequence_rn_none data hn
    have h3 : find_subsequence data nfromLowerPat = none := by
      rw [find_subsequence_congr data nfromLowerPat nFromPat (by decide)]
      exact hn
    have h4 : find_subsequence data rnfromLowerPat = none := by
      rw [find_subsequence_congr data rnfromLowerPat rnFromPat (by decide)]
      exact h2
    simp [hn, h2, h3, h4]

theorem fromMatchAt_zero_iff (data : List Nat) :
    fromMatchAt data 0 ↔
      (5 ≤ data.length ∧ eqIgnoreCase (data.take 5) fromPat = true) := by
  unfold fromMatchAt
  rw [windowP_zero_iff]
  have h5 : fromPat.length = 5 := rfl
  rw [h5]
  simp

/-- C8 amended: find_from_header_position returns exactly the first position,
scanning forward, at which the literal token From: matches case-insensitively
and which is either the very start of the input or immediately preceded by an
LF byte (covering both LF and CRLF line breaks); on the scenario input of the
specification that position is 21, not 22. -/
theorem c8_amended :
    (∀ data p, find_from_header_position data = some p ↔
      (fromMatchAt data p ∧ ∀ q, q < p → ¬ fromMatchAt data q)) ∧
    find_from_header_position c8Scenario = some 21 := by
  constructor
  · intro data p
    by_cases hc : 5 ≤ data.length ∧ eqIgnoreCase (data.take 5) fromPat = true
    · have heq : find_from_header_position data = some 0 := by
        unfold find_from_header_position
        rw [if_pos hc]
      rw [heq]
      constructor
      · intro h
        have hp : p = 0 := (Option.some.inj h).symm
        subst hp
        exact ⟨(fromMatchAt_zero_iff data).mpr hc, fun q hq => by omega⟩
      · rintro ⟨hm, hmin⟩
        cases p with
        | zero => rfl
        | succ j => exact absurd ((fromMatchAt_zero_iff data).mpr hc) (hmin 0 (by omega))
    · rw [ffhp_eq_of_not_start data hc]
      have hnot0 : ¬ fromMatchAt data 0 := fun hm => hc ((fromMatchAt_zero_iff data).mp hm)
      constructor
      · intro h
        obtain ⟨j, hj, rfl⟩ := Option.map_eq_some'.mp h
        obtain ⟨hw, hmin⟩ := (scan_windows_eq_some_iff _ data nFromPat j).mp hj
        obtain ⟨h10, hwf⟩ := (windowP_nFrom_iff data j).mp hw
        refine ⟨⟨hwf, Or.inr h10⟩, ?_⟩
        intro q hq
        cases q with
        | zero => exact hnot0
        | succ q2 =>
          intro hmq
          have h10q : data.getD q2 0 = 10 := by
            rcases hmq.2 with h0 | h0
            · omega
            · exact h0
          exact hmin q2 (by omega) ((windowP_nFrom_iff data q2).mpr ⟨h10q, hmq.1⟩)
      · rintro ⟨hm, hmin⟩
        cases p with
        | zero => exact absurd hm hnot0
        | succ j =>
          have h10 : data.getD j 0 = 10 := by
            rcases hm.2 with h0 | h0
            · omega
            · exact h0
          have hj : find_subsequence data nFromPat = some j := by
            refine (scan_windows_eq_some_iff _ data nFromPat j).mpr
              ⟨(windowP_nFrom_iff data j).mpr ⟨h10, hm.1⟩, ?_⟩
            intro q hq hwq
            obtain ⟨hq10, hqf⟩ := (windowP_nFrom_iff data q).mp hwq
            exact hmin (q + 1) (by omega) ⟨hqf, Or.inr hq10⟩
          rw [hj]
          rfl
  · decide

theorem c8_amended_witness :
    fromMatchAt c8Scenario 21 ∧ ¬ fromMatchAt c8Scenario 20 :=
  have h := (c8_amended.1 c8Scenario 21).mp (by decide)
  ⟨h.1, h.2 20 (by decide)⟩

/-- C8 counterexample: on the scenario input the code returns byte offset 21
for the From: token (the CR sits at 19 and the LF at 20), not the offset 22
stated by the specification. -/
theorem c8_counterexample :
    find_from_header_position c8Scenario = some 21 ∧ (21 : Nat) ≠ 22 := by decide

theorem find_from_pos_le (data : List Nat) (p : Nat)
    (h : find_from_header_position data = some p) : p + 5 ≤ data.length := by
  by_cases hc : 5 ≤ data.length ∧ eqIgnoreCase (data.take 5) fromPat = true
  · have h0 : find_from_header_position data = some 0 := by
      unfold find_from_header_position
      rw [if_pos hc]
    rw [h0] at h
    have hp := Option.some.inj h
    have h5 := hc.1
    omega
  · rw [ffhp_eq_of_not_start data hc] at h
    obtain ⟨j, hj, rfl⟩ := Option.map_eq_some'.mp h
    obtain ⟨⟨hlen, _⟩, _⟩ := (scan_windows_eq_some_iff _ data nFromPat j).mp hj
    have h6 : nFromPat.length = 6 := rfl
    omega

theorem csp_le_of_le (ms fp L : Nat) (hms : ms ≤ L) (hfp : fp ≤ L) :
    calculate_split_point ms fp ≤ L := by
  unfold calculate_split_point
  split_ifs <;> omega

theorem cphe_error (H : List Nat) (cap fp : Nat) (hlen : cap < H.length)
    (hf : find_from_header_position H = some fp)
    (hz : calculate_split_point (H.length - cap) fp = 0) :
    compute_partial_hash_for_email H cap = some (Except.error HashError.unsplittable) := by
  unfold compute_partial_hash_for_email
  rw [if_neg (by omega), hf]
  simp only [if_pos hlen, hz]
  simp

theorem cphe_ok (H : List Nat) (cap fp : Nat) (hlen : cap < H.length)
    (hf : find_from_header_position H = some fp)
    (hnz : calculate_split_point (H.length - cap) fp ≠ 0) :
    compute_partial_hash_for_email H cap =
      some (Except.ok
        { state := processBlocks sha256InitState
            (H.take (calculate_split_point (H.length - cap) fp))
          remaining := H.drop (calculate_split_point (H.length - cap) fp)
          total_length := H.length
          prehashed_length := calculate_split_point (H.length - cap) fp }) := by
  have hfle : fp ≤ H.length := by
    have := find_from_pos_le H fp hf
    omega
  have hsle : calculate_split_point (H.length - cap) fp ≤ H.length :=
    csp_le_of_le _ _ _ (by omega) hfle
  have hguard : (H.take (calculate_split_point (H.length - cap) fp)).length % 64 = 0 := by
    rw [List.length_take, Nat.min_eq_left hsle]
    exact csp_mod64 _ _
  unfold compute_partial_hash_for_email
  rw [if_neg (by omega), hf]
  simp only [if_pos hlen]
  rw [if_neg hnz]
  unfold compute_sha256_partial_state
  rw [if_pos hguard]

/-- C10: compute_partial_hash_for_email never panics.  Every value returned by
calculate_split_point is a multiple of 64, so the prefix handed to
compute_sha256_partial_state always has length a multiple of 64 and the length
assertion inside it (modelled as the none outcome) is unreachable from this
entry point: the result is some outcome on every input. -/
theorem c10_no_panic :
    (∀ ms fp, calculate_split_point ms fp % 64 = 0) ∧
    (∀ H cap, (compute_partial_hash_for_email H cap).isSome = true) := by
  refine ⟨csp_mod64, ?_⟩
  intro H cap
  by_cases h1 : H.length ≤ cap
  · unfold compute_partial_hash_for_email
    rw [if_pos h1]
    rfl
  · have hlen : cap < H.length := by omega
    cases hf : find_from_header_position H with
    | none =>
      unfold compute_partial_hash_for_email
      rw [if_neg h1, hf]
      rfl
    | some fp =>
      by_cases hz : calculate_split_point (H.length - cap) fp = 0
      · rw [cphe_error H cap fp hlen hf hz]
        rfl
      · rw [cphe_ok H cap fp hlen hf hz]
        rfl

/-- C3 counterexample: header c3H has length 80, its From header sits at 65
and with capacity 10 the quantity length minus capacity is 70, at least 65;
the claim demands the Unsplittable failure, yet the code succeeds with
prehashed length 64 and 16 remaining bytes, which also exceeds the capacity
bound 10, refuting both parts of the claim. -/
theorem c3_counterexample :
    c3H.length = 80 ∧
    find_from_header_position c3H = some 65 ∧
    65 ≤ c3H.length - 10 ∧
    okPrehashedLength (compute_partial_hash_for_email c3H 10) = some 64 ∧
    okRemainingLength (compute_partial_hash_for_email c3H 10) = some 16 ∧
    10 < 16 := by decide

/-- C3 amended: with the header longer than the capacity and the From header
located, the Unsplittable failure is returned whenever the mandatory position
is at most minSplit rounded down to a 64-byte boundary (rather than whenever
it is at most minSplit); and on success the remaining length is at most the
capacity plus 63 (rather than at most the capacity). -/
theorem c3_amended (H : List Nat) (cap fp : Nat)
    (hlen : cap < H.length) (hfind : find_from_header_position H = some fp) :
    (fp ≤ (H.length - cap) / 64 * 64 →
      compute_partial_hash_for_email H cap = some (Except.error HashError.unsplittable)) ∧
    (∀ r, compute_partial_hash_for_email H cap = some (Except.ok r) →
      r.remaining.length ≤ cap + 63) := by
  constructor
  · intro hle
    apply cphe_error H cap fp hlen hfind
    unfold calculate_split_point
    split_ifs with h1 h2 <;> omega
  · intro r hr
    by_cases hz : calculate_split_point (H.length - cap) fp = 0
    · rw [cphe_error H cap fp hlen hfind hz] at hr
      simp at hr
    · rw [cphe_ok H cap fp hlen hfind hz] at hr
      have hrr := Except.ok.inj (Option.some.inj hr)
      have hb : H.length - cap ≤ calculate_split_point (H.length - cap) fp + 63 := by
        unfold calculate_split_point at hz ⊢
        split_ifs at hz ⊢ <;> omega
      rw [← hrr]
      simp only [List.length_drop]
      omega

set_option maxRecDepth 8000 in
theorem c3_amended_witness :
    compute_partial_hash_for_email c3wH 72 = some (Except.error HashError.unsplittable) :=
  (c3_amended c3wH 72 65 (by decide) (by decide)).1 (by decide)

theorem processBlocksGo_append (k : Nat) :
    ∀ (j : Nat) (st a b : List Nat), a.length = 64 * k →
      processBlocks.processBlocksGo (k + j) st (a ++ b) =
        processBlocks.processBlocksGo j (processBlocks.processBlocksGo k st a) b := by
  induction k with
  | zero =>
    intro j st a b ha
    have haz : a = [] := List.length_eq_zero.mp (by omega)
    subst haz
    simp [processBlocks.processBlocksGo]
  | succ k ih =>
    intro j st a b ha
    have h64 : 64 ≤ a.length := by omega
    have hkj : k + 1 + j = (k + j) + 1 := by omega
    rw [hkj]
    rw [processBlocks.processBlocksGo, processBlocks.processBlocksGo]
    have htake : (a ++ b).take 64 = a.take 64 := by
      rw [List.take_append_eq_append_take, Nat.sub_eq_zero_of_le h64, List.take_zero,
        List.append_nil]
    have hdrop : (a ++ b).drop 64 = a.drop 64 ++ b := by
      rw [List.drop_append_eq_append_drop, Nat.sub_eq_zero_of_le h64, List.drop_zero]
    rw [htake, hdrop]
    exact ih j _ (a.drop 64) b (by rw [List.length_drop]; omega)

theorem processBlocks_append (st a b : List Nat) (ha : a.length % 64 = 0) :
    processBlocks st (a ++ b) = processBlocks (processBlocks st a) b := by
  unfold processBlocks
  have hk : a.length = 64 * (a.length / 64) := by omega
  have hcount : (a ++ b).length / 64 = a.length / 64 + b.length / 64 := by
    rw [List.length_append]
    omega
  rw [hcount]
  exact processBlocksGo_append (a.length / 64) (b.length / 64) st a b hk

/-- C1: whenever compute_partial_hash_for_email succeeds, resuming standard
SHA-256 from the returned state over the returned remaining bytes, with the
standard padding suffix computed from the returned total length, yields
exactly the standard SHA-256 digest of the whole header. -/
theorem c1_roundtrip (H : List Nat) (cap : Nat) (r : PartialHashResult)
    (h : compute_partial_hash_for_email H cap = some (Except.ok r)) :
    sha256Resume r.state r.remaining r.total_length = sha256Spec H := by
  by_cases h1 : H.length ≤ cap
  · unfold compute_partial_hash_for_email at h
    rw [if_pos h1] at h
    have hr := Except.ok.inj (Option.some.inj h)
    rw [← hr]
    unfold sha256Resume sha256Spec
    rfl
  · have hlen : cap < H.length := by omega
    cases hf : find_from_header_position H with
    | none =>
      unfold compute_partial_hash_for_email at h
      rw [if_neg h1, hf] at h
      simp at h
    | some fp =>
      by_cases hz : calculate_split_point (H.length - cap) fp = 0
      · rw [cphe_error H cap fp hlen hf hz] at h
        simp at h
      · rw [cphe_ok H cap fp hlen hf hz] at h
        have hr := Except.ok.inj (Option.some.inj h)
        rw [← hr]
        have hfle : fp ≤ H.length := by
          have := find_from_pos_le H fp hf
          omega
        have hsle : calculate_split_point (H.length - cap) fp ≤ H.length :=
          csp_le_of_le _ _ _ (by omega) hfle
        have htl : (H.take (calculate_split_point (H.length - cap) fp)).length % 64 = 0 := by
          rw [List.length_take, Nat.min_eq_left hsle]
          exact csp_mod64 _ _
        unfold sha256Resume sha256Spec
        dsimp only
        rw [← processBlocks_append _ _ _ htl, ← List.append_assoc, List.take_append_drop]

theorem c1_roundtrip_witness :
    compute_partial_hash_for_email [] 0 =
      some (Except.ok
        { state := sha256InitState, remaining := [], total_length := 0,
          prehashed_length := 0 }) ∧
    sha256Resume sha256InitState [] 0 = sha256Spec [] :=
  ⟨rfl, c1_roundtrip [] 0
    { state := sha256InitState, remaining := [], total_length := 0,
      prehashed_length := 0 } rfl⟩

theorem extendSchedule_length (w : List Nat) : (extendSchedule w).length = w.length + 1 := by
  unfold extendSchedule
  simp

theorem iterate_extend_length (n : Nat) (block : List Nat) :
    (extendSchedule^[n] block).length = block.length + n := by
  induction n with
  | zero => simp
  | succ n ih =>
    rw [Function.iterate_succ_apply', extendSchedule_length, ih]
    omega

theorem extendSchedule_getD_lt (w : List Nat) (i : Nat) (h : i < w.length) :
    (extendSchedule w).getD i 0 = w.getD i 0 := by
  unfold extendSchedule
  exact List.getD_append _ _ _ _ h

theorem extendSchedule_getD_last (w : List Nat) :
    (extendSchedule w).getD w.length 0 =
      (((w.getD (w.length - 16) 0 + smallSigma0 (w.getD (w.length - 15) 0)) % 2 ^ 32
          + w.getD (w.length - 7) 0) % 2 ^ 32
          + smallSigma1 (w.getD (w.length - 2) 0)) % 2 ^ 32 := by
  unfold extendSchedule
  rw [List.getD_append_right _ _ _ _ (Nat.le_refl _), Nat.sub_self]
  rfl

theorem messageSchedule_getD (block : List Nat) (hb : block.length = 16) :
    ∀ n, ∀ i, i < 16 + n →
      (extendSchedule^[n] block).getD i 0 = fipsW (fun j => block.getD j 0) i := by
  intro n
  induction n with
  | zero =>
    intro i hi
    rw [Function.iterate_zero_apply, fipsW, dif_pos (by omega)]
  | succ n ih =>
    intro i hi
    rw [Function.iterate_succ_apply']
    have hlen : (extendSchedule^[n] block).length = 16 + n := by
      rw [iterate_extend_length, hb]
    by_cases hlt : i < 16 + n
    · rw [extendSchedule_getD_lt _ i (by omega)]
      exact ih i hlt
    · have hieq : i = 16 + n := by omega
      subst hieq
      have hlast := extendSchedule_getD_last (extendSchedule^[n] block)
      rw [hlen] at hlast
      rw [hlast]
      have e16 : 16 + n - 16 = n := by omega
      have e15 : 16 + n - 15 = n + 1 := by omega
      have e7 : 16 + n - 7 = n + 9 := by omega
      have e2 : 16 + n - 2 = n + 14 := by omega
      rw [e16, e15, e7, e2, ih n (by omega), ih (n + 1) (by omega), ih (n + 9) (by omega),
        ih (n + 14) (by omega)]
      conv_rhs => rw [fipsW]
      rw [dif_neg (by omega)]
      rw [e16, e15, e7, e2]
      rw [Nat.mod_add_mod]
      have hmod3 : ∀ x y z : Nat, (x % 2 ^ 32 + y + z) % 2 ^ 32 = (x + y + z) % 2 ^ 32 := by
        intro x y z
        rw [Nat.add_assoc, Nat.mod_add_mod, ← Nat.add_assoc]
      rw [hmod3]
      congr 1
      ring

theorem roundStep_eq_fipsRound (k w : Nat) (v : WorkVars) :
    roundStep k w v = fipsRound k w v := by
  unfold roundStep fipsRound
  simp only [Nat.mod_add_mod, Nat.add_mod_mod]

theorem foldl_range_roundStep (ws : List Nat) (n : Nat) (v0 : WorkVars) :
    (List.range n).foldl (fun v i => roundStep (K64.getD i 0) (ws.getD i 0) v) v0 =
      fipsIter (fun t => K64.getD t 0) (fun t => ws.getD t 0) n v0 := by
  induction n with
  | zero => rfl
  | succ n ih =>
    rw [List.range_succ, List.foldl_append, ih, fipsIter]
    simp [roundStep_eq_fipsRound]

theorem fipsIter_congr (K W1 W2 : Nat → Nat) (n : Nat) (v : WorkVars)
    (h : ∀ t, t < n → W1 t = W2 t) : fipsIter K W1 n v = fipsIter K W2 n v := by
  induction n with
  | zero => rfl
  | succ n ih =>
    rw [fipsIter, fipsIter, ih (fun t ht => h t (by omega)), h n (by omega)]

/-- C2: the compression function of the source coincides bit for bit with the
FIPS 180-4 SHA-256 compression function, modelled independently from the
standard as the W recurrence, the 64 T1 and T2 rounds, and the final modular
addition into the state, on every 8-word state and 16-word block. -/
theorem c2_compress_matches_fips (state block : List Nat)
    (hs : state.length = 8) (hb : block.length = 16) :
    sha256_compress state block = fipsCompress state block := by
  unfold sha256_compress fipsCompress
  dsimp only
  have hw : ∀ t, t < 64 →
      (messageSchedule block).getD t 0 = fipsW (fun j => block.getD j 0) t := by
    intro t ht
    exact messageSchedule_getD block hb 48 t (by omega)
  rw [foldl_range_roundStep]
  rw [fipsIter_congr _ _ _ 64 _ (fun t ht => hw t ht)]

theorem c2_compress_matches_fips_witness :
    sha256_compress sha256InitState demoBlock16 =
      fipsCompress sha256InitState demoBlock16 :=
  c2_compress_matches_fips sha256InitState demoBlock16 (by decide) (by decide)

theorem lower_not_upper (x : Nat) :
    ¬(65 ≤ to_ascii_lowercase x ∧ to_ascii_lowercase x ≤ 90) := by
  unfold to_ascii_lowercase
  split_ifs <;> omega

/-- C9 amended: find_from_header_info succeeds exactly when the From-header
regex matches, the address regex finds an address in the captured value, and
additionally the lowercased address occurs verbatim in the text; on success the
reported address is lowercase (it contains no upper-case ASCII byte) and
addressStart is the first byte offset of the lowercased address in the text.
When the lowercased address does not occur, the function fails with the
address-not-in-email error, a failure mode beyond the two listed by the
claim. -/
theorem c9_from_info (data : List Nat) :
    (fromLineFind data = none →
      find_from_header_info data = Except.error FromInfoError.fromHeaderNotFound) ∧
    ∀ p gs ge, fromLineFind data = some (p, gs, ge) →
      ((emailFind ((data.drop gs).take (ge - gs)) = none →
          find_from_header_info data = Except.error FromInfoError.addressNotFound) ∧
        ∀ addr, emailFind ((data.drop gs).take (ge - gs)) = some addr →
          ((∀ b ∈ addr.map to_ascii_lowercase, ¬(65 ≤ b ∧ b ≤ 90)) ∧
            (find_exact data (addr.map to_ascii_lowercase) = none →
              find_from_header_info data = Except.error FromInfoError.addressNotInEmail) ∧
            ∀ i, find_exact data (addr.map to_ascii_lowercase) = some i →
              (find_from_header_info data =
                  Except.ok (p, ge - p, i, (addr.map to_ascii_lowercase).length,
                    addr.map to_ascii_lowercase) ∧
                windowP (fun a b => a == b) data i (addr.map to_ascii_lowercase) ∧
                ∀ j, j < i →
                  ¬ windowP (fun a b => a == b) data j (addr.map to_ascii_lowercase)))) := by
  constructor
  · intro h
    unfold find_from_header_info
    rw [h]
  · intro p gs ge hline
    constructor
    · intro he
      unfold find_from_header_info
      rw [hline]
      dsimp only
      rw [he]
    · intro addr haddr
      refine ⟨?_, ?_, ?_⟩
      · intro b hb
        obtain ⟨a, _, rfl⟩ := List.mem_map.mp hb
        exact lower_not_upper a
      · intro hne
        unfold find_from_header_info
        rw [hline]
        dsimp only
        rw [haddr]
        dsimp only
        rw [hne]
      · intro i hi
        constructor
        · unfold find_from_header_info
          rw [hline]
          dsimp only
          rw [haddr]
          dsimp only
          rw [hi]
        · unfold find_exact at hi
          have hchar := (scan_windows_eq_some_iff (fun a b => a == b) data
            (addr.map to_ascii_lowercase) i).mp hi
          exact hchar

theorem c9_from_info_witness :
    find_from_header_info c9demo =
      Except.ok (0, 13, 6, 7, [97, 64, 98, 99, 46, 100, 101]) :=
  ((((c9_from_info c9demo).2 0 6 13 (by decide)).2 [97, 64, 98, 99, 46, 100, 101]
      (by decide)).2.2 6 (by decide)).1

/-- C9 counterexample: the email c9cex contains a From line whose value embeds
the address with upper-case letters A at B.co; the claim demands success, but
the code lowercases the address and then fails to find the lowercased string
in the text, returning the address-not-in-email error. -/
theorem c9_counterexample :
    fromLineFind c9cex = some (0, 6, 12) ∧
    emailFind ((c9cex.drop 6).take 6) = some [65, 64, 66, 46, 99, 111] ∧
    find_from_header_info c9cex = Except.error FromInfoError.addressNotInEmail := by
  decide
